import Mathlib

/-!
Verification development for the DocuLens contract-management core.

The embedded code comes from:
* `src/app/utils/string_utils.py` — `normalize_document_type`;
* `src/app/services/contract_manager.py` — `ContractManager.get_document_contract`,
  `ContractManager.validate_contract`, `ContractManager._convert_contract_list_to_dict`,
  and the contract gate at the start of `ContractManager.extract_data`.

Python's dynamically-typed JSON-like values are modelled by the inductive
type `PyVal`; dictionaries are association lists that keep insertion order,
with string keys (the JSON object model: every dictionary key that the
embedded code creates or looks up is a string, since contracts and document
types arrive as JSON rows from the store).  Python exceptions are modelled
with `Except`: an operation that can raise returns `Except PyErr α`, and a
blanket `try/except` handler is a `match` on that result.
-/

/-- A Python/JSON value: string, integer, boolean, `None`, list, or
dictionary (association list in insertion order, string keys). -/
inductive PyVal where
  | str (s : String)
  | int (n : Int)
  | bool (b : Bool)
  | none
  | list (xs : List PyVal)
  | dict (xs : List (String × PyVal))

/-- A Python exception as far as the embedded code can raise one:
`AttributeError` (calling `.lower()` on a non-string) or `TypeError`
(using an unhashable value as a dictionary key). -/
inductive PyErr where
  | attributeError
  | typeError
  deriving DecidableEq

/-- Python truthiness (`bool(v)`): empty string, zero, `False`, `None`,
empty list and empty dict are falsy, everything else is truthy. -/
def pyFalsy : PyVal → Bool
  | .str s => s = ""
  | .int n => n = 0
  | .bool b => !b
  | .none => true
  | .list xs => xs.isEmpty
  | .dict xs => xs.isEmpty

/-- Dictionary lookup `d[k]` / `k in d`: the first binding of key `k`
(Python dictionaries have unique keys; on an association list the first
binding is the deterministic choice). -/
def dictLookup (k : String) (xs : List (String × PyVal)) : Option PyVal :=
  (xs.find? (fun kv => kv.1 = k)).map (fun kv => kv.2)

/-- Dictionary assignment `d[k] = v`: if `k` is already bound, the binding
is overwritten in place (Python keeps the key's original position);
otherwise the new binding is appended at the end. -/
def dictSet (xs : List (String × PyVal)) (k : String) (v : PyVal) : List (String × PyVal) :=
  match xs with
  | [] => [(k, v)]
  | (k', w) :: rest => if k' = k then (k', v) :: rest else (k', w) :: dictSet rest k v

/-- Python `str.lower()`, character-wise ASCII lowering (the strings the
code handles are ASCII document-type labels). -/
def strLower (s : String) : String :=
  String.mk (s.data.map Char.toLower)

/-- Python `s.replace(c, "")` for a single-character pattern: removes every
occurrence of the character `c`. -/
def removeChar (c : Char) (u : List Char) : List Char :=
  u.filter (fun x => x ≠ c)

/-- Fuel-bounded worker for `strReplace`.  Each step either copies one
character or replaces one leftmost occurrence of `pat`; `fuel ≥ u.length`
makes the recursion structural so that terms evaluate by `rfl`. -/
def strReplaceAux (pat rep : List Char) : Nat → List Char → List Char
  | 0, u => u
  | _ + 1, [] => []
  | fuel + 1, c :: t =>
    if pat ≠ [] ∧ pat.isPrefixOf (c :: t) then
      rep ++ strReplaceAux pat rep fuel ((c :: t).drop pat.length)
    else
      c :: strReplaceAux pat rep fuel t

/-- Python `u.replace(pat, rep)`: replace the leftmost occurrence of `pat`,
then continue after the inserted `rep` (non-overlapping, left to right).
For the empty pattern it returns `u` unchanged (the embedded code only
replaces non-empty patterns). -/
def strReplace (pat rep u : List Char) : List Char :=
  strReplaceAux pat rep u.length u

/-- Python `pat in s`: substring test. -/
def strContains (pat : List Char) : List Char → Bool
  | [] => pat.isEmpty
  | c :: t => pat.isPrefixOf (c :: t) || strContains pat t

/-- The separator-stripping and lowering pipeline of
`normalize_document_type` (string_utils.py line 27):
`document_type.lower().replace(" ", "").replace("_", "").replace("-", "")`. -/
def stripLower (l : List Char) : List Char :=
  removeChar '-' (removeChar '_' (removeChar ' ' (l.map Char.toLower)))

/-- The typo-correction step of `normalize_document_type`
(string_utils.py lines 29–31):
`if "employment" in normalized: normalized = normalized.replace("employement", "employment")`.
Note the guard tests for the corrected spelling `"employment"`, exactly as
the source does. -/
def employmentStep (l : List Char) : List Char :=
  if strContains "employment".data l then strReplace "employement".data "employment".data l
  else l

/-- `normalize_document_type` from `src/app/utils/string_utils.py`:
empty input returns `""` (`if not document_type: return ""`), otherwise
lower-case, strip spaces/underscores/hyphens, then the guarded
typo-correction. -/
def normalize_document_type (document_type : String) : String :=
  if document_type = "" then ""
  else String.mk (employmentStep (stripLower document_type.data))

example : normalize_document_type "Employment_Verification" = "employmentverification" := rfl
example : normalize_document_type "EMPLOYMENT-VERIFICATION" = "employmentverification" := rfl
example : normalize_document_type "Employement Letter" = "employementletter" := rfl
example : normalize_document_type "Employment Letter" = "employmentletter" := rfl
example : normalize_document_type "" = "" := rfl

/-! ### The contract manager (`src/app/services/contract_manager.py`) -/

/-- The in-memory contract registry `self.user_contracts`: a Python dict
mapping document-type strings to raw contract values (in either shape),
in insertion order. -/
abbrev Registry := List (String × PyVal)

/-- One step of `_convert_contract_list_to_dict` (lines 405–414): a record
that is a dict containing `'name'` contributes
`(field_name, {"type": field.get('type', 'string'),
"description": field.get('description', f"Extract the {field_name}")})`;
any other record is skipped.  (Dictionary keys are strings in this model,
so only a string-valued `'name'` can become a key; the JSON contracts the
store returns have string field names.) -/
def convertField (field : PyVal) : Option (String × PyVal) :=
  match field with
  | .dict entries =>
    match dictLookup "name" entries with
    | some (.str field_name) =>
      some (field_name,
        .dict [("type", (dictLookup "type" entries).getD (.str "string")),
               ("description",
                 (dictLookup "description" entries).getD
                   (.str ("Extract the " ++ field_name)))])
    | _ => Option.none
  | _ => Option.none

/-- `ContractManager._convert_contract_list_to_dict` (lines 389–416):
start from `{"type": "object", "properties": {}}` and assign one
properties entry per contributing record, in list order. -/
def convert_contract_list_to_dict (contract_list : List PyVal) : PyVal :=
  .dict [("type", .str "object"),
         ("properties", .dict (contract_list.foldl (fun acc field =>
            match convertField field with
            | some (field_name, descriptor) => dictSet acc field_name descriptor
            | Option.none => acc) []))]

/-- The formatting applied on every return path of `get_document_contract`
(lines 306–307, 315–316, 328–329): `if isinstance(contract, list):
contract = self._convert_contract_list_to_dict(contract, ...)`. -/
def formatContract : PyVal → PyVal
  | .list xs => convert_contract_list_to_dict xs
  | c => c

/-- The exact-match step (lines 303–308): `document_type in
self.user_contracts` followed by `self.user_contracts[document_type]`.
Membership compares the key with `==` against each (string) key: a
non-string hashable value is simply never equal; an unhashable value
(list/dict) raises `TypeError`. -/
def exactLookup (document_type : PyVal) (registry : Registry) : Except PyErr (Option PyVal) :=
  match document_type with
  | .str s => .ok (dictLookup s registry)
  | .list _ => .error .typeError
  | .dict _ => .error .typeError
  | _ => .ok Option.none

/-- Python `document_type.lower()`: raises `AttributeError` on a
non-string value. -/
def pyLower (v : PyVal) : Except PyErr String :=
  match v with
  | .str s => .ok (strLower s)
  | _ => .error .attributeError

/-- The case-insensitive loop (lines 310–317): first key whose lower-cased
form equals `document_type.lower()` wins; the `.lower()` call on a
non-string `document_type` raises as soon as the loop body runs. -/
def ciLoop (document_type : PyVal) (registry : Registry) : Except PyErr (Option PyVal) :=
  match registry with
  | [] => .ok Option.none
  | (contract_type, contract) :: rest =>
    match pyLower document_type with
    | .error e => .error e
    | .ok dl =>
      if dl = strLower contract_type then .ok (some (formatContract contract))
      else ciLoop document_type rest

/-- `normalize_document_type(document_type)` applied to an arbitrary value
(line 320): `if not document_type: return ""` accepts any falsy value;
a truthy non-string then hits `.lower()` and raises `AttributeError`. -/
def pyNormalize (v : PyVal) : Except PyErr String :=
  if pyFalsy v then .ok ""
  else
    match v with
    | .str s => .ok (normalize_document_type s)
    | _ => .error .attributeError

/-- The normalized-match loop (lines 323–330): first key whose normalized
form equals the normalized document type wins. -/
def normLoop (normalized_doc_type : String) (registry : Registry) : Option PyVal :=
  match registry with
  | [] => Option.none
  | (contract_type, contract) :: rest =>
    if normalized_doc_type = normalize_document_type contract_type then
      some (formatContract contract)
    else normLoop normalized_doc_type rest

/-- The body of `ContractManager.get_document_contract` (lines 301–334),
before the blanket `except` handler: exact match, then case-insensitive
match, then normalized match, else the `{}` not-found marker.  A raised
exception surfaces as `.error`. -/
def get_document_contract_body (document_type : PyVal) (registry : Registry) :
    Except PyErr PyVal :=
  match exactLookup document_type registry with
  | .error e => .error e
  | .ok (some contract) => .ok (formatContract contract)
  | .ok Option.none =>
    match ciLoop document_type registry with
    | .error e => .error e
    | .ok (some contract) => .ok contract
    | .ok Option.none =>
      match pyNormalize document_type with
      | .error e => .error e
      | .ok normalized_doc_type =>
        match normLoop normalized_doc_type registry with
        | some contract => .ok contract
        | Option.none => .ok (.dict [])

/-- `ContractManager.get_document_contract` (lines 288–338): the
`try/except` wrapper turns any exception from the body into the `{}`
not-found marker (lines 336–338), so the caller always receives a value. -/
def get_document_contract (document_type : PyVal) (registry : Registry) : PyVal :=
  match get_document_contract_body document_type registry with
  | .ok contract => contract
  | .error _ => .dict []

/-- `not document_type` for the optional `document_type: str = None`
parameter of `validate_contract`: `None` and `""` are falsy. -/
def optStrFalsy : Option String → Bool
  | Option.none => true
  | some s => s = ""

/-- The per-property loop of `validate_contract` (lines 378–383): every
field definition must be a dict containing a `'type'` key; the first
offending field is named in the message. -/
def validateProps (properties : List (String × PyVal)) : Bool × String :=
  match properties with
  | [] => (true, "")
  | (field_name, field_def) :: rest =>
    match field_def with
    | .dict dentries =>
      if (dentries.find? (fun kv => kv.1 = "type")).isSome then validateProps rest
      else (false, "Field '" ++ field_name ++ "' must have a 'type' property")
    | _ => (false, "Field definition for '" ++ field_name ++ "' must be a dictionary")

/-- `ContractManager.validate_contract` (lines 340–387): empty data,
list-shape conversion, mapping check, properties/document_type check,
per-property checks, in source order with the source's messages.  (The
pure body cannot raise, so the final `except` branch is unreachable.) -/
def validate_contract (contract_data : PyVal) (document_type : Option String) : Bool × String :=
  if pyFalsy contract_data then (false, "Contract data is empty")
  else
    let schema_data := match contract_data with
      | .list xs => convert_contract_list_to_dict xs
      | v => v
    match schema_data with
    | .dict entries =>
      if (dictLookup "properties" entries).isNone && optStrFalsy document_type then
        (false, "Contract must have a 'properties' field defining the data structure")
      else
        match dictLookup "properties" entries with
        | some (.dict pentries) => validateProps pentries
        | some _ => (false, "Contract properties must be a dictionary")
        | Option.none => (true, "")
    | _ => (false, "Contract data must be a dictionary or a list of field definitions")

/-- Outcome of the contract gate at the start of
`ContractManager.extract_data`. -/
inductive ExtractGate where
  | noContract
  | proceed (contract : PyVal)

/-- The contract gate of `ContractManager.extract_data` (lines 254–259):
`contract = await self.get_document_contract(document_type)`; a falsy
contract yields the "unknown document" error payload, otherwise extraction
proceeds with the contract. -/
def extract_data_gate (document_type : PyVal) (registry : Registry) : ExtractGate :=
  let contract := get_document_contract document_type registry
  if pyFalsy contract then .noContract else .proceed contract

example :
    validate_contract (.dict []) Option.none = (false, "Contract data is empty") := rfl
example :
    validate_contract
      (.dict [("properties", .dict [("x", .dict [("notype", .int 1)])])]) Option.none
    = (false, "Field 'x' must have a 'type' property") := rfl
example :
    validate_contract (.list [.dict [("name", .str "a"), ("type", .str "string")]]) Option.none
    = (true, "") := rfl
example :
    get_document_contract (.str "invoice")
      [("invoice", .list [.dict [("name", .str "amount"), ("type", .str "number")]])]
    = .dict [("type", .str "object"),
             ("properties", .dict [("amount",
               .dict [("type", .str "number"), ("description", .str "Extract the amount")])])] := rfl

/-- Is the value a dictionary? (`isinstance(v, dict)`). -/
def isDictVal : PyVal → Bool
  | .dict _ => true
  | _ => false

/-- Is the value a list or a dictionary? — the two raw contract shapes the
store interface can return (spec §6). -/
def isListOrDict : PyVal → Bool
  | .list _ => true
  | .dict _ => true
  | _ => false

/-! ### Specification-side definitions for the Shape Converter (spec §4.2)

`specProperties` renders the conversion rule as the spec states it:
the properties mapping has one key per distinct contributing record name,
in first-occurrence input order, and each key carries the descriptor of
the last record with that name (a mapping's later assignment overwrites
the value but keeps the key's position).  It is compared with the
source-translated `convert_contract_list_to_dict` below. -/

/-- First-occurrence deduplication, preserving order. -/
def dedupFirst : List String → List String
  | [] => []
  | n :: rest => n :: dedupFirst (rest.filter (fun m => m ≠ n))
termination_by l => l.length
decreasing_by
  simp only [List.length_cons]
  exact Nat.lt_succ_of_le (List.length_filter_le _ _)

/-- The names of the contributing records, in input order (with
repetitions). -/
def rawNames (contract_list : List PyVal) : List String :=
  contract_list.filterMap (fun f => (convertField f).map Prod.fst)

/-- The distinct contributing names in first-occurrence order. -/
def specNames (contract_list : List PyVal) : List String :=
  dedupFirst (rawNames contract_list)

/-- The descriptor contributed by the last record with name `n`. -/
def specLastVal (contract_list : List PyVal) (n : String) : Option PyVal :=
  contract_list.foldl (fun acc f =>
    match convertField f with
    | some (nm, d) => if nm = n then some d else acc
    | Option.none => acc) Option.none

/-- The properties mapping as the spec describes it. -/
def specProperties (contract_list : List PyVal) : List (String × PyVal) :=
  (specNames contract_list).map (fun n => (n, (specLastVal contract_list n).getD PyVal.none))

/-! ### Basic lemmas about the string model -/

theorem toNat_ofNat_valid (n : Nat) (h : n.isValidChar) : (Char.ofNat n).val.toNat = n := by
  rw [Char.ofNat, dif_pos h]
  rfl

/-- `Char.toLower` is idempotent: lowering an already-lowered character is
the identity. -/
theorem toLower_toLower (c : Char) : c.toLower.toLower = c.toLower := by
  simp only [Char.toLower, Char.toNat]
  split
  · next h =>
    have hval : (Char.ofNat (c.val.toNat + 32)).val.toNat = c.val.toNat + 32 := by
      apply toNat_ofNat_valid
      left
      have h90 : c.val.toNat ≤ 90 := h.2
      omega
    rw [if_neg]
    rw [hval]
    omega
  · rfl

/-- Wrapper with a local name for the library characterization of
`List.isPrefixOf`. -/
theorem isPrefixOf_iff {l₁ l₂ : List Char} : l₁.isPrefixOf l₂ = true ↔ l₁ <+: l₂ := by
  exact List.isPrefixOf_iff_prefix

/-- The fuel argument of `strReplaceAux` is irrelevant once it covers the
input's length. -/
theorem strReplaceAux_fuel (pat rep : List Char) :
    ∀ (f₁ : Nat), ∀ (f₂ : Nat), ∀ (u : List Char), u.length ≤ f₁ → u.length ≤ f₂ →
      strReplaceAux pat rep f₁ u = strReplaceAux pat rep f₂ u := by
  intro f₁
  induction f₁ with
  | zero =>
    intro f₂ u hu₁ _
    have : u = [] := by
      cases u with
      | nil => rfl
      | cons c t => simp at hu₁
    subst this
    cases f₂ <;> rfl
  | succ m ih =>
    intro f₂ u hu₁ hu₂
    cases u with
    | nil => cases f₂ <;> rfl
    | cons c t =>
      cases f₂ with
      | zero => simp at hu₂
      | succ m₂ =>
        simp only [strReplaceAux]
        by_cases hc : pat ≠ [] ∧ pat.isPrefixOf (c :: t) = true
        · rw [if_pos hc, if_pos hc]
          have hlen : ((c :: t).drop pat.length).length ≤ t.length := by
            have hp1 : 1 ≤ pat.length := by
              cases pat with
              | nil => exact absurd rfl hc.1
              | cons p ps => simp
            simp only [List.length_drop, List.length_cons]
            omega
          have h₁ : ((c :: t).drop pat.length).length ≤ m := by
            simp only [List.length_cons] at hu₁
            omega
          have h₂ : ((c :: t).drop pat.length).length ≤ m₂ := by
            simp only [List.length_cons] at hu₂
            omega
          rw [ih m₂ _ h₁ h₂]
        · rw [if_neg hc, if_neg hc]
          have h₁ : t.length ≤ m := by
            simp only [List.length_cons] at hu₁
            omega
          have h₂ : t.length ≤ m₂ := by
            simp only [List.length_cons] at hu₂
            omega
          rw [ih m₂ _ h₁ h₂]

theorem strReplace_nil (pat rep : List Char) : strReplace pat rep [] = [] := rfl

/-- The natural recurrence satisfied by `strReplace` on a non-empty input:
replace a leftmost occurrence of the (non-empty) pattern and continue after
it, else keep the head character. -/
theorem strReplace_cons (pat rep : List Char) (c : Char) (t : List Char) :
    strReplace pat rep (c :: t) =
      if pat ≠ [] ∧ pat <+: (c :: t) then
        rep ++ strReplace pat rep ((c :: t).drop pat.length)
      else
        c :: strReplace pat rep t := by
  show strReplaceAux pat rep (t.length + 1) (c :: t) = _
  simp only [strReplaceAux]
  by_cases hc : pat ≠ [] ∧ pat <+: (c :: t)
  · rw [if_pos, if_pos hc]
    · unfold strReplace
      congr 1
      apply strReplaceAux_fuel
      · have hp1 : 1 ≤ pat.length := by
          cases pat with
          | nil => exact absurd rfl hc.1
          | cons p ps => simp
        simp only [List.length_drop, List.length_cons]
        omega
      · exact Nat.le_refl _
    · exact ⟨hc.1, isPrefixOf_iff.mpr hc.2⟩
  · rw [if_neg, if_neg hc]
    · rfl
    · intro h
      exact hc ⟨h.1, isPrefixOf_iff.mp h.2⟩

/-- `strContains` agrees with the infix relation. -/
theorem strContains_iff (pat : List Char) :
    ∀ u : List Char, strContains pat u = true ↔ pat <:+: u := by
  intro u
  induction u with
  | nil =>
    simp only [strContains, List.isEmpty_iff, List.infix_nil]
  | cons c t ih =>
    simp only [strContains, Bool.or_eq_true, isPrefixOf_iff, ih, List.infix_cons_iff]

/-- A prefix is in particular an infix. -/
theorem pref_isInf {l₁ l₂ : List Char} (h : l₁ <+: l₂) : l₁ <:+: l₂ := by
  obtain ⟨t, ht⟩ := h
  exact ⟨[], t, by simpa using ht⟩

/-- Being an infix is having a prefix placement at some drop position. -/
theorem infix_iff_drop {l₁ l₂ : List Char} : l₁ <:+: l₂ ↔ ∃ i, l₁ <+: l₂.drop i := by
  constructor
  · rintro ⟨s, t, rfl⟩
    refine ⟨s.length, ?_⟩
    rw [List.append_assoc, List.drop_left]
    exact List.prefix_append l₁ t
  · rintro ⟨i, t, ht⟩
    exact ⟨l₂.take i, t, by rw [List.append_assoc, ht, List.take_append_drop]⟩

/-- A prefix of `a ++ b` no longer than `a` is a prefix of `a`. -/
theorem pref_append_left {l a b : List Char} (h : l <+: a ++ b) (hl : l.length ≤ a.length) :
    l <+: a :=
  List.prefix_of_prefix_length_le h (List.prefix_append a b) hl

/-- `strReplace` leaves a string without any occurrence of the pattern
unchanged. -/
theorem strReplace_of_not_contains (pat rep : List Char) :
    ∀ (n : Nat) (u : List Char), u.length ≤ n → ¬ (pat <:+: u) → strReplace pat rep u = u := by
  intro n
  induction n with
  | zero =>
    intro u hu _
    have hu0 : u = [] := by
      cases u with
      | nil => rfl
      | cons a b => simp at hu
    subst hu0
    rfl
  | succ m ih =>
    intro u hu h
    cases u with
    | nil => rfl
    | cons c t =>
      rw [strReplace_cons, if_neg]
      · rw [ih t (by simp at hu; omega) (fun hinf => h (List.infix_cons_iff.mpr (Or.inr hinf)))]
      · rintro ⟨_, hpref⟩
        exact h (pref_isInf hpref)

/-- Every character of `strReplace pat rep u` comes from `u` or from `rep`. -/
theorem mem_strReplace (pat rep : List Char) :
    ∀ (n : Nat) (u : List Char), u.length ≤ n → ∀ x, x ∈ strReplace pat rep u →
      x ∈ u ∨ x ∈ rep := by
  intro n
  induction n with
  | zero =>
    intro u hu x hx
    have hu0 : u = [] := by
      cases u with
      | nil => rfl
      | cons a b => simp at hu
    subst hu0
    rw [strReplace_nil] at hx
    simp at hx
  | succ m ih =>
    intro u hu x hx
    cases u with
    | nil =>
      rw [strReplace_nil] at hx
      simp at hx
    | cons c t =>
      rw [strReplace_cons] at hx
      by_cases hpre : pat ≠ [] ∧ pat <+: (c :: t)
      · rw [if_pos hpre] at hx
        rcases List.mem_append.mp hx with hx | hx
        · exact Or.inr hx
        · have hlen : ((c :: t).drop pat.length).length ≤ m := by
            have hp1 : 1 ≤ pat.length := by
              cases pat with
              | nil => exact absurd rfl hpre.1
              | cons p ps => simp
            simp only [List.length_drop, List.length_cons]
            simp only [List.length_cons] at hu
            omega
          rcases ih _ hlen x hx with hx' | hx'
          · exact Or.inl (List.mem_of_mem_drop hx')
          · exact Or.inr hx'
      · rw [if_neg hpre] at hx
        rcases List.mem_cons.mp hx with hx | hx
        · exact Or.inl (hx ▸ List.mem_cons_self c t)
        · rcases ih t (by simp at hu; omega) x hx with hx' | hx'
          · exact Or.inl (List.mem_cons_of_mem c hx')
          · exact Or.inr hx'

/-- If the pattern occurs in `u`, the replacement string occurs in
`strReplace pat rep u`. -/
theorem rep_in_strReplace (pat rep : List Char) (hne : pat ≠ []) :
    ∀ (n : Nat) (u : List Char), u.length ≤ n → pat <:+: u →
      rep <:+: strReplace pat rep u := by
  intro n
  induction n with
  | zero =>
    intro u hu h
    have hu0 : u = [] := by
      cases u with
      | nil => rfl
      | cons a b => simp at hu
    subst hu0
    rw [List.infix_nil] at h
    exact absurd h hne
  | succ m ih =>
    intro u hu h
    cases u with
    | nil =>
      rw [List.infix_nil] at h
      exact absurd h hne
    | cons c t =>
      rw [strReplace_cons]
      by_cases hpre : pat ≠ [] ∧ pat <+: (c :: t)
      · rw [if_pos hpre]
        exact ⟨[], strReplace pat rep ((c :: t).drop pat.length), by simp⟩
      · rw [if_neg hpre]
        rcases List.infix_cons_iff.mp h with h1 | h2
        · exact absurd ⟨hne, h1⟩ hpre
        · exact List.infix_cons_iff.mpr (Or.inr (ih t (by simp at hu; omega) h2))

/-- No proper non-empty tail of `"employement"` is a prefix of
`"employment"` (checked exhaustively). -/
theorem emp_drop_not_pref :
    ∀ k, k < 11 → 1 ≤ k → ¬ (List.drop k "employement".data <+: "employment".data) := by
  decide

/-- No non-empty tail of `"employment"` equals the same-length head of
`"employement"` (checked exhaustively). -/
theorem emp_no_border :
    ∀ i, i < 10 → ¬ (List.drop i "employment".data = List.take (10 - i) "employement".data) := by
  decide

/-- If a tail `drop k` of the pattern `"employement"` (for `1 ≤ k ≤ 10`) is
a prefix of the replaced string, it was already a prefix of the input. -/
theorem strReplace_emp_drop_pref :
    ∀ (n : Nat) (u : List Char), u.length ≤ n → ∀ (k : Nat), 1 ≤ k → k ≤ 10 →
      List.drop k "employement".data <+: strReplace "employement".data "employment".data u →
      List.drop k "employement".data <+: u := by
  intro n
  induction n with
  | zero =>
    intro u hu k h1 h10 hp
    have hu0 : u = [] := by
      cases u with
      | nil => rfl
      | cons a b => simp at hu
    subst hu0
    rw [strReplace_nil, List.prefix_nil] at hp
    have hlen := congrArg List.length hp
    rw [List.length_drop] at hlen
    have e1 : ("employement".data).length = 11 := rfl
    rw [e1] at hlen
    simp at hlen
    omega
  | succ m ih =>
    intro u hu k h1 h10 hp
    cases u with
    | nil =>
      rw [strReplace_nil, List.prefix_nil] at hp
      have hlen := congrArg List.length hp
      rw [List.length_drop] at hlen
      have e1 : ("employement".data).length = 11 := rfl
      rw [e1] at hlen
      simp at hlen
      omega
    | cons c t =>
      rw [strReplace_cons] at hp
      by_cases hpre : "employement".data ≠ [] ∧ "employement".data <+: (c :: t)
      · rw [if_pos hpre] at hp
        exfalso
        have hq : List.drop k "employement".data <+: "employment".data := by
          apply pref_append_left hp
          rw [List.length_drop]
          have e1 : ("employement".data).length = 11 := rfl
          have e2 : ("employment".data).length = 10 := rfl
          rw [e1, e2]
          omega
        exact emp_drop_not_pref k (by omega) h1 hq
      · rw [if_neg hpre] at hp
        have hk11 : k < ("employement".data).length := by
          have e1 : ("employement".data).length = 11 := rfl
          omega
        rw [List.drop_eq_getElem_cons hk11] at hp ⊢
        rw [List.cons_prefix_cons] at hp ⊢
        obtain ⟨hc, hp'⟩ := hp
        refine ⟨hc, ?_⟩
        by_cases hk10 : k = 10
        · subst hk10
          exact ⟨t, rfl⟩
        · have ht : t.length ≤ m := by
            simp only [List.length_cons] at hu
            omega
          exact ih t ht (k + 1) (by omega) (by omega) hp'

/-- The output of the typo replacement never contains the pattern
`"employement"` again: replacement removes every occurrence and the
boundaries of the inserted `"employment"` cannot recreate one. -/
theorem strReplace_emp_no_pat :
    ∀ (n : Nat) (u : List Char), u.length ≤ n →
      ¬ ("employement".data <:+: strReplace "employement".data "employment".data u) := by
  intro n
  induction n with
  | zero =>
    intro u hu h
    have hu0 : u = [] := by
      cases u with
      | nil => rfl
      | cons a b => simp at hu
    subst hu0
    rw [strReplace_nil, List.infix_nil] at h
    exact (by decide : "employement".data ≠ []) h
  | succ m ih =>
    intro u hu h
    cases u with
    | nil =>
      rw [strReplace_nil, List.infix_nil] at h
      exact (by decide : "employement".data ≠ []) h
    | cons c t =>
      rw [strReplace_cons] at h
      by_cases hpre : "employement".data ≠ [] ∧ "employement".data <+: (c :: t)
      · rw [if_pos hpre] at h
        rw [infix_iff_drop] at h
        obtain ⟨i, hi⟩ := h
        by_cases hilt : i < 10
        · rw [List.drop_append_of_le_length (by
            have e2 : ("employment".data).length = 10 := rfl
            omega)] at hi
          have hpref : List.drop i "employment".data <+: "employement".data :=
            List.prefix_of_prefix_length_le (List.prefix_append _ _) hi (by
              rw [List.length_drop]
              have e1 : ("employement".data).length = 11 := rfl
              have e2 : ("employment".data).length = 10 := rfl
              rw [e1, e2]
              omega)
          have heq := List.prefix_iff_eq_take.mp hpref
          rw [List.length_drop] at heq
          have e2 : ("employment".data).length = 10 := rfl
          rw [e2] at heq
          exact emp_no_border i hilt heq
        · have hi10 : i = ("employment".data).length + (i - 10) := by
            have e2 : ("employment".data).length = 10 := rfl
            omega
          rw [hi10, List.drop_append] at hi
          have hlen : ((c :: t).drop ("employement".data).length).length ≤ m := by
            have e1 : ("employement".data).length = 11 := rfl
            rw [List.length_drop, e1]
            simp only [List.length_cons] at hu ⊢
            omega
          exact ih _ hlen (infix_iff_drop.mpr ⟨i - 10, hi⟩)
      · rw [if_neg hpre] at h
        rcases List.infix_cons_iff.mp h with h1 | h2
        · rw [show "employement".data = 'e' :: "mployement".data from rfl,
            List.cons_prefix_cons] at h1
          obtain ⟨hce, hres⟩ := h1
          have hres' : List.drop 1 "employement".data <+:
              strReplace "employement".data "employment".data t := hres
          have htail := strReplace_emp_drop_pref t.length t (Nat.le_refl _) 1
            (by omega) (by omega) hres'
          apply hpre
          refine ⟨by decide, ?_⟩
          rw [show "employement".data = 'e' :: "mployement".data from rfl,
            List.cons_prefix_cons]
          exact ⟨hce, htail⟩
        · exact ih t (by simp at hu; omega) h2

/-- Every character that `stripLower` outputs is lower-case-fixed and is
not a space, underscore or hyphen. -/
theorem stripLower_chars (l : List Char) :
    ∀ x ∈ stripLower l, Char.toLower x = x ∧ x ≠ ' ' ∧ x ≠ '_' ∧ x ≠ '-' := by
  intro x hx
  unfold stripLower removeChar at hx
  rw [List.mem_filter] at hx
  obtain ⟨hx, hd⟩ := hx
  rw [List.mem_filter] at hx
  obtain ⟨hx, hu⟩ := hx
  rw [List.mem_filter] at hx
  obtain ⟨hx, hs⟩ := hx
  rw [List.mem_map] at hx
  obtain ⟨c, _, hc⟩ := hx
  refine ⟨?_, ?_, ?_, ?_⟩
  · rw [← hc]
    exact toLower_toLower c
  · simpa using hs
  · simpa using hu
  · simpa using hd

/-- The characters of `"employment"` are lower-case-fixed and separator
free. -/
theorem employment_chars :
    ∀ x ∈ "employment".data, Char.toLower x = x ∧ x ≠ ' ' ∧ x ≠ '_' ∧ x ≠ '-' := by
  decide

/-- Every character of `employmentStep l` comes from `l` or from the
replacement string `"employment"`. -/
theorem employmentStep_chars (l : List Char) :
    ∀ x ∈ employmentStep l, x ∈ l ∨ x ∈ "employment".data := by
  intro x hx
  unfold employmentStep at hx
  by_cases hg : strContains "employment".data l = true
  · rw [if_pos hg] at hx
    exact mem_strReplace _ _ l.length l (Nat.le_refl _) x hx
  · rw [if_neg hg] at hx
    exact Or.inl hx

/-- `stripLower` fixes any string whose characters are already
lower-case-fixed and separator free. -/
theorem stripLower_of_fixed (l : List Char)
    (h : ∀ x ∈ l, Char.toLower x = x ∧ x ≠ ' ' ∧ x ≠ '_' ∧ x ≠ '-') :
    stripLower l = l := by
  unfold stripLower removeChar
  have hmap : l.map Char.toLower = l := by
    have := List.map_congr_left (f := Char.toLower) (g := id)
      (fun a ha => (h a ha).1)
    rw [this, List.map_id]
  rw [hmap]
  have h1 : l.filter (fun x => x ≠ ' ') = l := by
    rw [List.filter_eq_self]
    intro a ha
    simpa using (h a ha).2.1
  rw [h1]
  have h2 : l.filter (fun x => x ≠ '_') = l := by
    rw [List.filter_eq_self]
    intro a ha
    simpa using (h a ha).2.2.1
  rw [h2]
  rw [List.filter_eq_self]
  intro a ha
  simpa using (h a ha).2.2.2

/-- The defining equation of `employmentStep`. -/
theorem employmentStep_eq (l : List Char) :
    employmentStep l =
      if strContains "employment".data l = true then
        strReplace "employement".data "employment".data l
      else l := rfl

/-- Applying the typo-correction step twice is the same as applying it
once. -/
theorem employmentStep_emp_fix (u : List Char) :
    employmentStep (employmentStep u) = employmentStep u := by
  by_cases hg : strContains "employment".data u = true
  · have ht : employmentStep u = strReplace "employement".data "employment".data u := by
      rw [employmentStep_eq, if_pos hg]
    by_cases hocc : "employement".data <:+: u
    · have hcont : strContains "employment".data (employmentStep u) = true := by
        rw [strContains_iff, ht]
        exact rep_in_strReplace _ _ (by decide) u.length u (Nat.le_refl _) hocc
      have hnopat : ¬ ("employement".data <:+: employmentStep u) := by
        rw [ht]
        exact strReplace_emp_no_pat u.length u (Nat.le_refl _)
      rw [employmentStep_eq (employmentStep u), if_pos hcont]
      exact strReplace_of_not_contains _ _ (employmentStep u).length _ (Nat.le_refl _) hnopat
    · have hu : employmentStep u = u := by
        rw [ht]
        exact strReplace_of_not_contains _ _ u.length u (Nat.le_refl _) hocc
      rw [hu]
      exact hu
  · have hu : employmentStep u = u := by
      rw [employmentStep_eq, if_neg hg]
    rw [hu]
    exact hu

/-- All characters coming out of `normalize_document_type` (viewed through
`employmentStep ∘ stripLower`) are lower-case-fixed and separator free. -/
theorem normalize_pipeline_chars (l : List Char) :
    ∀ x ∈ employmentStep (stripLower l),
      Char.toLower x = x ∧ x ≠ ' ' ∧ x ≠ '_' ∧ x ≠ '-' := by
  intro x hx
  rcases employmentStep_chars _ x hx with h | h
  · exact stripLower_chars l x h
  · exact employment_chars x h

/-- Unfolding of `normalize_document_type` on non-empty input. -/
theorem normalize_document_type_eq_of_ne (s : String) (hs : s ≠ "") :
    normalize_document_type s = String.mk (employmentStep (stripLower s.data)) := by
  rw [normalize_document_type, if_neg hs]

/-- C3: normalization is idempotent: for every string `s`,
`normalize_document_type (normalize_document_type s) = normalize_document_type s`. -/
theorem normalize_document_type_idem (s : String) :
    normalize_document_type (normalize_document_type s) = normalize_document_type s := by
  by_cases hs : s = ""
  · subst hs
    rfl
  · rw [normalize_document_type_eq_of_ne s hs]
    by_cases ht : String.mk (employmentStep (stripLower s.data)) = ""
    · rw [ht]
      rfl
    · rw [normalize_document_type_eq_of_ne _ ht]
      congr 1
      rw [stripLower_of_fixed _ (normalize_pipeline_chars s.data)]
      exact employmentStep_emp_fix _

/-- C2: the typo-correction is dead for typo-only inputs: the guard on
line 30 of string_utils.py tests for the corrected spelling
`"employment"`, which `"employementletter"` does not contain, so
`normalize_document_type "Employement Letter"` keeps the typo and differs
from `normalize_document_type "Employment Letter"`. -/
theorem normalize_employement_typo_uncorrected :
    normalize_document_type "Employement Letter" = "employementletter"
    ∧ normalize_document_type "Employment Letter" = "employmentletter"
    ∧ normalize_document_type "Employement Letter" ≠ normalize_document_type "Employment Letter" :=
  ⟨rfl, rfl, by decide⟩

/-- C4: `normalize_document_type` lower-cases and removes spaces,
underscores and hyphens: its output characters are lower-case-fixed and
separator free; strings with equal lower-cased separator-stripped forms
normalize equally; the spec's examples agree; empty input normalizes to
the empty string. -/
theorem normalize_document_type_case_sep :
    (∀ s : String, ∀ c ∈ (normalize_document_type s).data,
        Char.toLower c = c ∧ c ≠ ' ' ∧ c ≠ '_' ∧ c ≠ '-')
    ∧ (∀ s₁ s₂ : String, stripLower s₁.data = stripLower s₂.data →
        normalize_document_type s₁ = normalize_document_type s₂)
    ∧ normalize_document_type "Employment_Verification" = normalize_document_type "employmentverification"
    ∧ normalize_document_type "employmentverification" = normalize_document_type "EMPLOYMENT-VERIFICATION"
    ∧ normalize_document_type "" = "" := by
  refine ⟨?_, ?_, rfl, rfl, rfl⟩
  · intro s c hc
    by_cases hs : s = ""
    · subst hs
      simp [normalize_document_type] at hc
    · rw [normalize_document_type_eq_of_ne s hs] at hc
      exact normalize_pipeline_chars s.data c hc
  · intro s₁ s₂ h
    by_cases h1 : s₁ = ""
    · subst h1
      by_cases h2 : s₂ = ""
      · subst h2
        rfl
      · have hnil : stripLower s₂.data = [] := by
          rw [← h]
          rfl
        rw [normalize_document_type_eq_of_ne _ h2, hnil]
        rfl
    · by_cases h2 : s₂ = ""
      · subst h2
        have hnil : stripLower s₁.data = [] := by
          rw [h]
          rfl
        rw [normalize_document_type_eq_of_ne _ h1, hnil]
        rfl
      · rw [normalize_document_type_eq_of_ne _ h1, normalize_document_type_eq_of_ne _ h2, h]

/-- Witness for `normalize_document_type_case_sep`: two labels differing
only in case and separators normalize equally. -/
theorem normalize_document_type_case_sep_witness :
    normalize_document_type "Pay Slip" = normalize_document_type "pay_slip" :=
  normalize_document_type_case_sep.2.1 "Pay Slip" "pay_slip" rfl


/-! ### Lemmas about the resolver -/

theorem exactLookup_str (s : String) (registry : Registry) :
    exactLookup (.str s) registry = .ok (dictLookup s registry) := rfl

theorem ciLoop_str_cons (s k : String) (c : PyVal) (rest : Registry) :
    ciLoop (.str s) ((k, c) :: rest) =
      if strLower s = strLower k then .ok (some (formatContract c))
      else ciLoop (.str s) rest := rfl

/-- `dictLookup` misses when no binding has the key. -/
theorem dictLookup_eq_none (k : String) (xs : List (String × PyVal))
    (h : ∀ kv ∈ xs, kv.1 ≠ k) : dictLookup k xs = Option.none := by
  unfold dictLookup
  rw [List.find?_eq_none.mpr]
  · rfl
  · intro x hx
    simpa using h x hx

/-- A successful `dictLookup` returns the value of a binding of the list
with the requested key. -/
theorem dictLookup_mem {k : String} {xs : List (String × PyVal)} {v : PyVal}
    (h : dictLookup k xs = some v) : ∃ kv, kv ∈ xs ∧ kv.1 = k ∧ kv.2 = v := by
  unfold dictLookup at h
  cases hf : List.find? (fun kv => kv.1 = k) xs with
  | none => rw [hf] at h; simp at h
  | some kv =>
    rw [hf] at h
    rw [show Option.map (fun kv : String × PyVal => kv.2) (some kv) = some kv.2 from rfl,
      Option.some_inj] at h
    refine ⟨kv, List.mem_of_find?_eq_some hf, ?_, h⟩
    have := List.find?_some hf
    simpa using this

/-- The case-insensitive loop never raises on a string document type. -/
theorem ciLoop_str_ok (s : String) :
    ∀ registry : Registry, ∃ r, ciLoop (.str s) registry = .ok r := by
  intro registry
  induction registry with
  | nil => exact ⟨Option.none, rfl⟩
  | cons kv rest ih =>
    obtain ⟨k, c⟩ := kv
    rw [ciLoop_str_cons]
    by_cases h : strLower s = strLower k
    · exact ⟨some (formatContract c), by rw [if_pos h]⟩
    · obtain ⟨r, hr⟩ := ih
      exact ⟨r, by rw [if_neg h]; exact hr⟩

/-- The case-insensitive loop returns no match when no key matches
case-insensitively. -/
theorem ciLoop_str_none (s : String) :
    ∀ registry : Registry, (∀ kv ∈ registry, strLower s ≠ strLower kv.1) →
      ciLoop (.str s) registry = .ok Option.none := by
  intro registry
  induction registry with
  | nil => intro _; rfl
  | cons kv rest ih =>
    intro h
    obtain ⟨k, c⟩ := kv
    rw [ciLoop_str_cons, if_neg (h (k, c) (List.mem_cons_self _ _))]
    exact ih (fun kv hkv => h kv (List.mem_cons_of_mem _ hkv))

/-- Any contract the case-insensitive loop returns is the formatted value
of a registry binding. -/
theorem ciLoop_some_mem {d : PyVal} {v : PyVal} :
    ∀ registry : Registry, ciLoop d registry = .ok (some v) →
      ∃ kv, kv ∈ registry ∧ v = formatContract kv.2 := by
  intro registry
  induction registry with
  | nil => intro h; simp [ciLoop] at h
  | cons kv rest ih =>
    intro h
    obtain ⟨k, c⟩ := kv
    unfold ciLoop at h
    split at h
    · simp at h
    · split at h
      · simp only [Except.ok.injEq, Option.some.injEq] at h
        exact ⟨(k, c), List.mem_cons_self _ _, h.symm⟩
      · obtain ⟨kv', hmem, hv⟩ := ih h
        exact ⟨kv', List.mem_cons_of_mem _ hmem, hv⟩

/-- `normalize_document_type` lifted to values agrees with the string
function on strings (the empty string is falsy and normalizes to `""`
either way). -/
theorem pyNormalize_str (s : String) :
    pyNormalize (.str s) = .ok (normalize_document_type s) := by
  unfold pyNormalize
  by_cases hs : s = ""
  · subst hs
    rfl
  · rw [if_neg]
    simp only [pyFalsy]
    simpa using hs

/-- The normalized-match loop returns no match when no key matches after
normalization. -/
theorem normLoop_none (nd : String) :
    ∀ registry : Registry, (∀ kv ∈ registry, nd ≠ normalize_document_type kv.1) →
      normLoop nd registry = Option.none := by
  intro registry
  induction registry with
  | nil => intro _; rfl
  | cons kv rest ih =>
    intro h
    obtain ⟨k, c⟩ := kv
    unfold normLoop
    rw [if_neg (h (k, c) (List.mem_cons_self _ _))]
    exact ih (fun kv hkv => h kv (List.mem_cons_of_mem _ hkv))

/-- Any contract the normalized-match loop returns is the formatted value
of a registry binding. -/
theorem normLoop_some_mem {nd : String} {v : PyVal} :
    ∀ registry : Registry, normLoop nd registry = some v →
      ∃ kv, kv ∈ registry ∧ v = formatContract kv.2 := by
  intro registry
  induction registry with
  | nil => intro h; simp [normLoop] at h
  | cons kv rest ih =>
    intro h
    obtain ⟨k, c⟩ := kv
    unfold normLoop at h
    split at h
    · simp only [Option.some.injEq] at h
      exact ⟨(k, c), List.mem_cons_self _ _, h.symm⟩
    · obtain ⟨kv', hmem, hv⟩ := ih h
      exact ⟨kv', List.mem_cons_of_mem _ hmem, hv⟩

/-- C1: resolution tries exact, then case-insensitive, then normalized
match, first match winning: whenever the raw document type is exactly a
registry key, `get_document_contract` returns that key's (shape-converted)
entry — the first binding under exact equality — regardless of what the
later strategies would match elsewhere in the registry. -/
theorem get_document_contract_exact_match (d : String) (registry : Registry) (c : PyVal)
    (h : dictLookup d registry = some c) :
    get_document_contract (.str d) registry = formatContract c
    ∧ get_document_contract_body (.str d) registry = .ok (formatContract c) := by
  have hbody : get_document_contract_body (.str d) registry = .ok (formatContract c) := by
    unfold get_document_contract_body
    rw [exactLookup_str, h]
  exact ⟨by unfold get_document_contract; rw [hbody], hbody⟩

/-- Witness for `get_document_contract_exact_match`: the exact key wins
even though an earlier registry binding would match case-insensitively. -/
theorem get_document_contract_exact_match_witness :
    get_document_contract (.str "Invoice")
      [("INVOICE", .dict [("properties", .dict [("a", .dict [("type", .str "string")])])]),
       ("Invoice", .dict [("properties", .dict [])])]
    = .dict [("properties", .dict [])] :=
  (get_document_contract_exact_match "Invoice"
    [("INVOICE", .dict [("properties", .dict [("a", .dict [("type", .str "string")])])]),
     ("Invoice", .dict [("properties", .dict [])])]
    (.dict [("properties", .dict [])]) rfl).1

/-- C7: a string document type that matches no registry key under any of
the three strategies resolves to the explicit `{}` not-found marker, and
the body raises no exception on the way. -/
theorem get_document_contract_not_found (d : String) (registry : Registry)
    (hexact : ∀ kv ∈ registry, kv.1 ≠ d)
    (hci : ∀ kv ∈ registry, strLower d ≠ strLower kv.1)
    (hnorm : ∀ kv ∈ registry, normalize_document_type d ≠ normalize_document_type kv.1) :
    get_document_contract_body (.str d) registry = .ok (.dict [])
    ∧ get_document_contract (.str d) registry = .dict [] := by
  have hbody : get_document_contract_body (.str d) registry = .ok (.dict []) := by
    simp only [get_document_contract_body, exactLookup_str,
      dictLookup_eq_none d registry hexact, ciLoop_str_none d registry hci,
      pyNormalize_str, normLoop_none (normalize_document_type d) registry hnorm]
  exact ⟨hbody, by unfold get_document_contract; rw [hbody]⟩

/-- Witness for `get_document_contract_not_found` on a concrete registry. -/
theorem get_document_contract_not_found_witness :
    get_document_contract (.str "unknown") [("invoice", .dict [])] = .dict [] :=
  (get_document_contract_not_found "unknown" [("invoice", .dict [])]
    (by decide) (by decide) (by decide)).2

/-- A successful exact lookup returns the raw value of a registry
binding. -/
theorem exactLookup_some {d : PyVal} {registry : Registry} {c : PyVal}
    (h : exactLookup d registry = .ok (some c)) :
    ∃ kv, kv ∈ registry ∧ kv.2 = c := by
  cases d with
  | str s =>
    rw [exactLookup_str] at h
    simp only [Except.ok.injEq] at h
    obtain ⟨kv, hm, _, hv⟩ := dictLookup_mem h
    exact ⟨kv, hm, hv⟩
  | int n => simp [exactLookup] at h
  | bool b => simp [exactLookup] at h
  | none => simp [exactLookup] at h
  | list xs => simp [exactLookup] at h
  | dict xs => simp [exactLookup] at h

/-- C8 counterexample: for a non-string document type the function does
not raise: the body's internal `AttributeError` (from `.lower()` inside
`normalize_document_type`) is caught by the blanket handler, and the
caller receives the `{}` not-found marker instead of an InvalidInput
error. -/
theorem get_document_contract_nonstring_cex :
    get_document_contract_body (.int 5) [] = .error .attributeError
    ∧ get_document_contract (.int 5) [] = .dict [] :=
  ⟨rfl, rfl⟩

/-- C8 (amended): `get_document_contract` never raises at all: on a
string document type the body already completes without an exception,
and when the body does raise (non-string input), the `try/except`
wrapper converts the exception into the `{}` not-found marker. -/
theorem get_document_contract_never_raises :
    (∀ (s : String) (registry : Registry),
      ∃ v, get_document_contract_body (.str s) registry = .ok v)
    ∧ (∀ (d : PyVal) (registry : Registry) (e : PyErr),
        get_document_contract_body d registry = .error e →
        get_document_contract d registry = .dict []) := by
  constructor
  · intro s registry
    cases h : dictLookup s registry with
    | some c =>
      exact ⟨formatContract c, by
        unfold get_document_contract_body
        rw [exactLookup_str, h]⟩
    | none =>
      obtain ⟨r, hr⟩ := ciLoop_str_ok s registry
      cases r with
      | some v =>
        exact ⟨v, by
          simp only [get_document_contract_body, exactLookup_str, h, hr]⟩
      | none =>
        cases hn : normLoop (normalize_document_type s) registry with
        | some c =>
          exact ⟨c, by
            simp only [get_document_contract_body, exactLookup_str, h, hr,
              pyNormalize_str, hn]⟩
        | none =>
          exact ⟨.dict [], by
            simp only [get_document_contract_body, exactLookup_str, h, hr,
              pyNormalize_str, hn]⟩
  · intro d registry e h
    unfold get_document_contract
    rw [h]

/-- Witness for `get_document_contract_never_raises`: at the concrete
non-string input `5` the wrapper returns the `{}` marker. -/
theorem get_document_contract_never_raises_witness :
    get_document_contract (.int 5) [] = .dict [] :=
  get_document_contract_never_raises.2 (.int 5) [] .attributeError rfl

/-- C9: a found-but-empty schema is not the not-found error: whenever
resolution returns a non-empty dictionary — e.g. a canonical schema with
zero properties — `extract_data` proceeds with extraction instead of
returning the "unknown document" payload (only the falsy `{}` marker
triggers that payload). -/
theorem extract_data_empty_schema_proceeds (d : PyVal) (registry : Registry)
    (entries : List (String × PyVal)) (hne : entries ≠ [])
    (h : get_document_contract d registry = .dict entries) :
    extract_data_gate d registry = .proceed (.dict entries) := by
  simp only [extract_data_gate, h, pyFalsy]
  rw [if_neg]
  intro hh
  exact hne (List.isEmpty_iff.mp hh)

/-- Witness for `extract_data_empty_schema_proceeds`: a registry entry in
list shape with zero fields resolves to the canonical empty schema
`{"type": "object", "properties": {}}`, and extraction proceeds with
it. -/
theorem extract_data_empty_schema_proceeds_witness :
    extract_data_gate (.str "x") [("x", .list [])]
      = .proceed (.dict [("type", .str "object"), ("properties", .dict [])]) :=
  extract_data_empty_schema_proceeds (.str "x") [("x", .list [])]
    [("type", .str "object"), ("properties", .dict [])] (by simp) rfl

/-- A registry value in either raw shape formats to a dictionary. -/
theorem formatContract_dict (c : PyVal) (h : isListOrDict c = true) :
    isDictVal (formatContract c) = true := by
  cases c with
  | list xs => rfl
  | dict xs => rfl
  | str s => simp [isListOrDict] at h
  | int n => simp [isListOrDict] at h
  | bool b => simp [isListOrDict] at h
  | none => simp [isListOrDict] at h

/-- C10: when every registry value is in one of the two raw contract
shapes (list or dict), `get_document_contract` always hands the caller a
dictionary: list-shaped entries are converted on each of the three match
paths, and the failure paths return the `{}` marker. -/
theorem get_document_contract_always_dict (d : PyVal) (registry : Registry)
    (h : ∀ kv ∈ registry, isListOrDict kv.2 = true) :
    isDictVal (get_document_contract d registry) = true := by
  unfold get_document_contract
  cases hb : get_document_contract_body d registry with
  | error e => rfl
  | ok v =>
    unfold get_document_contract_body at hb
    split at hb
    · simp at hb
    · next contract heq =>
      simp only [Except.ok.injEq] at hb
      obtain ⟨kv, hm, hv⟩ := exactLookup_some heq
      rw [← hb, ← hv]
      exact formatContract_dict _ (h kv hm)
    · split at hb
      · simp at hb
      · next contract heq =>
        simp only [Except.ok.injEq] at hb
        obtain ⟨kv, hm, hv⟩ := ciLoop_some_mem registry heq
        rw [← hb, hv]
        exact formatContract_dict _ (h kv hm)
      · split at hb
        · simp at hb
        · split at hb
          · next contract heq =>
            simp only [Except.ok.injEq] at hb
            obtain ⟨kv, hm, hv⟩ := normLoop_some_mem registry heq
            rw [← hb, hv]
            exact formatContract_dict _ (h kv hm)
          · simp only [Except.ok.injEq] at hb
            rw [← hb]
            rfl

/-- Witness for `get_document_contract_always_dict` on a registry holding
one list-shaped and one dict-shaped entry. -/
theorem get_document_contract_always_dict_witness :
    isDictVal (get_document_contract (.str "q")
      [("a", .list []), ("b", .dict [("properties", .dict [])])]) = true :=
  get_document_contract_always_dict (.str "q")
    [("a", .list []), ("b", .dict [("properties", .dict [])])]
    (by decide)

theorem dictLookup_isSome (k : String) (xs : List (String × PyVal)) :
    (dictLookup k xs).isSome = (xs.find? (fun kv => kv.1 = k)).isSome := by
  unfold dictLookup
  cases xs.find? (fun kv => kv.1 = k) <;> rfl

/-- The per-property loop accepts when every field definition is a dict
containing a `'type'` key. -/
theorem validateProps_true :
    ∀ pentries : List (String × PyVal),
      (∀ kv ∈ pentries, ∃ des, kv.2 = PyVal.dict des ∧ (dictLookup "type" des).isSome = true) →
      validateProps pentries = (true, "") := by
  intro pentries
  induction pentries with
  | nil => intro _; rfl
  | cons kv rest ih =>
    intro h
    obtain ⟨fn, fd⟩ := kv
    obtain ⟨des, hfd, hty⟩ := h (fn, fd) (List.mem_cons_self _ _)
    simp only at hfd
    subst hfd
    simp only [validateProps]
    rw [dictLookup_isSome] at hty
    rw [if_pos hty]
    exact ih (fun kv hkv => h kv (List.mem_cons_of_mem _ hkv))

/-- C6: `validate_contract` evaluates its rules in source order with
short-circuiting: falsy data is "empty"; a non-empty list is first run
through the shape converter; a non-mapping value is rejected; a mapping
without `properties` and without a document-type hint is rejected; a
non-mapping `properties` value is rejected; a property definition lacking
`'type'` is rejected with a message naming the field (the spec's `x`
example); otherwise the result is `(True, "")` (including the spec's
converted-list example). -/
theorem validate_contract_rules :
    (∀ (v : PyVal) (dt : Option String), pyFalsy v = true →
        validate_contract v dt = (false, "Contract data is empty"))
    ∧ (∀ (xs : List PyVal) (dt : Option String), xs ≠ [] →
        validate_contract (.list xs) dt
          = validate_contract (convert_contract_list_to_dict xs) dt)
    ∧ (∀ (v : PyVal) (dt : Option String), pyFalsy v = false → isListOrDict v = false →
        validate_contract v dt
          = (false, "Contract data must be a dictionary or a list of field definitions"))
    ∧ (∀ (entries : List (String × PyVal)) (dt : Option String), entries ≠ [] →
        dictLookup "properties" entries = Option.none → optStrFalsy dt = true →
        validate_contract (.dict entries) dt
          = (false, "Contract must have a 'properties' field defining the data structure"))
    ∧ validate_contract (.dict [("properties", .dict [("x", .dict [("notype", .int 1)])])])
        Option.none = (false, "Field 'x' must have a 'type' property")
    ∧ (∀ (entries : List (String × PyVal)) (dt : Option String)
          (pentries : List (String × PyVal)),
        dictLookup "properties" entries = some (.dict pentries) →
        (∀ kv ∈ pentries, ∃ des, kv.2 = PyVal.dict des ∧ (dictLookup "type" des).isSome = true) →
        validate_contract (.dict entries) dt = (true, ""))
    ∧ (∀ (entries : List (String × PyVal)) (dt : Option String) (p : PyVal),
        dictLookup "properties" entries = some p → isDictVal p = false →
        validate_contract (.dict entries) dt
          = (false, "Contract properties must be a dictionary"))
    ∧ validate_contract (.list [.dict [("name", .str "a"), ("type", .str "string")]])
        Option.none = (true, "") := by
  refine ⟨?_, ?_, ?_, ?_, rfl, ?_, ?_, rfl⟩
  · intro v dt hf
    simp [validate_contract, hf]
  · intro xs dt hne
    cases xs with
    | nil => exact absurd rfl hne
    | cons f rest => rfl
  · intro v dt h1 h2
    cases v with
    | str s => simp [validate_contract, h1]
    | int n => simp [validate_contract, h1]
    | bool b => simp [validate_contract, h1]
    | none => simp [validate_contract, h1]
    | list xs => simp [isListOrDict] at h2
    | dict xs => simp [isListOrDict] at h2
  · intro entries dt hne hlook hdt
    cases entries with
    | nil => exact absurd rfl hne
    | cons e rest => simp [validate_contract, pyFalsy, hlook, hdt]
  · intro entries dt pentries hlook hall
    have hne : entries ≠ [] := by
      intro h
      subst h
      simp [dictLookup] at hlook
    cases entries with
    | nil => exact absurd rfl hne
    | cons e rest =>
      have := validateProps_true pentries hall
      simp [validate_contract, pyFalsy, hlook, this]
  · intro entries dt p hlook hp
    have hne : entries ≠ [] := by
      intro h
      subst h
      simp [dictLookup] at hlook
    cases entries with
    | nil => exact absurd rfl hne
    | cons e rest =>
      cases p with
      | dict xs => simp [isDictVal] at hp
      | str s => simp [validate_contract, pyFalsy, hlook]
      | int n => simp [validate_contract, pyFalsy, hlook]
      | bool b => simp [validate_contract, pyFalsy, hlook]
      | none => simp [validate_contract, pyFalsy, hlook]
      | list xs => simp [validate_contract, pyFalsy, hlook]

/-- Witness for `validate_contract_rules`: the empty dict is rejected as
empty contract data. -/
theorem validate_contract_rules_witness :
    validate_contract (.dict []) Option.none = (false, "Contract data is empty") :=
  validate_contract_rules.1 (.dict []) Option.none rfl

/-! ### The Shape Converter matches the spec's description (C5) -/

theorem dedupFirst_nil : dedupFirst [] = [] := by
  simp [dedupFirst]

theorem dedupFirst_cons (n : String) (rest : List String) :
    dedupFirst (n :: rest) = n :: dedupFirst (rest.filter (fun m => m ≠ n)) := by
  simp [dedupFirst]

/-- Membership is preserved by first-occurrence deduplication. -/
theorem mem_dedupFirst (x : String) :
    ∀ (N : Nat) (xs : List String), xs.length ≤ N → (x ∈ dedupFirst xs ↔ x ∈ xs) := by
  intro N
  induction N with
  | zero =>
    intro xs hxs
    have : xs = [] := by
      cases xs with
      | nil => rfl
      | cons a b => simp at hxs
    subst this
    rw [dedupFirst_nil]
  | succ m ih =>
    intro xs hxs
    cases xs with
    | nil => rw [dedupFirst_nil]
    | cons y ys =>
      rw [dedupFirst_cons]
      have hlen : (ys.filter (fun m => m ≠ y)).length ≤ m := by
        have := List.length_filter_le (fun m => decide (m ≠ y)) ys
        simp only [List.length_cons] at hxs
        omega
      constructor
      · intro hx
        rcases List.mem_cons.mp hx with hx | hx
        · exact hx ▸ List.mem_cons_self _ _
        · have := (ih _ hlen).mp hx
          rw [List.mem_filter] at this
          exact List.mem_cons_of_mem _ this.1
      · intro hx
        rcases List.mem_cons.mp hx with hx | hx
        · exact hx ▸ List.mem_cons_self _ _
        · by_cases hxy : x = y
          · exact hxy ▸ List.mem_cons_self _ _
          · refine List.mem_cons_of_mem _ ((ih _ hlen).mpr ?_)
            rw [List.mem_filter]
            exact ⟨hx, by simpa using hxy⟩

/-- First-occurrence deduplication yields pairwise distinct names. -/
theorem dedupFirst_nodup :
    ∀ (N : Nat) (xs : List String), xs.length ≤ N → (dedupFirst xs).Nodup := by
  intro N
  induction N with
  | zero =>
    intro xs hxs
    have : xs = [] := by
      cases xs with
      | nil => rfl
      | cons a b => simp at hxs
    subst this
    rw [dedupFirst_nil]
    exact List.nodup_nil
  | succ m ih =>
    intro xs hxs
    cases xs with
    | nil => rw [dedupFirst_nil]; exact List.nodup_nil
    | cons y ys =>
      rw [dedupFirst_cons]
      have hlen : (ys.filter (fun m => m ≠ y)).length ≤ m := by
        have := List.length_filter_le (fun m => decide (m ≠ y)) ys
        simp only [List.length_cons] at hxs
        omega
      refine List.nodup_cons.mpr ⟨?_, ih _ hlen⟩
      intro hy
      have := (mem_dedupFirst y _ _ (Nat.le_refl _)).mp hy
      rw [List.mem_filter] at this
      simp at this

/-- Appending one name: it is dropped when already present, kept at the
end otherwise. -/
theorem dedupFirst_append (x : String) :
    ∀ (N : Nat) (xs : List String), xs.length ≤ N →
      dedupFirst (xs ++ [x]) = if x ∈ xs then dedupFirst xs else dedupFirst xs ++ [x] := by
  intro N
  induction N with
  | zero =>
    intro xs hxs
    have : xs = [] := by
      cases xs with
      | nil => rfl
      | cons a b => simp at hxs
    subst this
    simp [dedupFirst_nil, dedupFirst_cons]
  | succ m ih =>
    intro xs hxs
    cases xs with
    | nil => simp [dedupFirst_nil, dedupFirst_cons]
    | cons y ys =>
      have hlen : (ys.filter (fun m => m ≠ y)).length ≤ m := by
        have := List.length_filter_le (fun m => decide (m ≠ y)) ys
        simp only [List.length_cons] at hxs
        omega
      rw [List.cons_append, dedupFirst_cons, List.filter_append]
      by_cases hxy : x = y
      · have hone : [x].filter (fun m => m ≠ y) = [] := by
          simp [hxy]
        rw [hone, List.append_nil, dedupFirst_cons]
        rw [if_pos (hxy ▸ List.mem_cons_self y ys)]
      · have hone : [x].filter (fun m => m ≠ y) = [x] := by
          simp [hxy]
        rw [hone, ih _ hlen]
        have hmem : x ∈ ys.filter (fun m => m ≠ y) ↔ x ∈ ys := by
          rw [List.mem_filter]
          simp [hxy]
        by_cases hx : x ∈ ys
        · rw [if_pos (hmem.mpr hx), dedupFirst_cons,
            if_pos (List.mem_cons_of_mem _ hx)]
        · rw [if_neg (fun hc => hx (hmem.mp hc)), dedupFirst_cons,
            if_neg (by
              intro hc
              rcases List.mem_cons.mp hc with hc | hc
              · exact hxy hc
              · exact hx hc)]
          rfl

/-- `dictSet` on a keyed map with pairwise distinct keys: an existing key
keeps its position and gets the new value; a new key is appended. -/
theorem dictSet_map (n : String) (d : PyVal) :
    ∀ (xs : List String) (g : String → PyVal), xs.Nodup →
      dictSet (xs.map (fun m => (m, g m))) n d =
        if n ∈ xs then xs.map (fun m => (m, if m = n then d else g m))
        else xs.map (fun m => (m, g m)) ++ [(n, d)] := by
  intro xs
  induction xs with
  | nil =>
    intro g _
    simp [dictSet]
  | cons x xs ih =>
    intro g hnd
    rw [List.map_cons, dictSet]
    by_cases hxn : x = n
    · rw [if_pos hxn, if_pos (hxn ▸ List.mem_cons_self x xs)]
      rw [List.map_cons, if_pos hxn]
      subst hxn
      have hnotin : x ∉ xs := (List.nodup_cons.mp hnd).1
      congr 1
      apply List.map_congr_left
      intro m hm
      have : m ≠ x := fun hc => hnotin (hc ▸ hm)
      rw [if_neg this]
    · rw [if_neg hxn, ih g (List.nodup_cons.mp hnd).2]
      by_cases hn : n ∈ xs
      · rw [if_pos hn, if_pos (List.mem_cons_of_mem _ hn), List.map_cons, if_neg hxn]
      · rw [if_neg hn,
          if_neg (by
            intro hc
            rcases List.mem_cons.mp hc with hc | hc
            · exact hxn hc.symm
            · exact hn hc)]
        rfl

/-- The fold of `_convert_contract_list_to_dict` computes exactly the
spec's properties mapping: keys are the distinct contributing names in
first-occurrence order, each carrying the last contributed descriptor. -/
theorem convertProps_eq_spec :
    ∀ contract_list : List PyVal,
      contract_list.foldl (fun acc field =>
        match convertField field with
        | some (field_name, descriptor) => dictSet acc field_name descriptor
        | Option.none => acc) []
      = specProperties contract_list := by
  intro contract_list
  induction contract_list using List.reverseRecOn with
  | nil =>
    unfold specProperties specNames rawNames
    simp [dedupFirst_nil]
  | append_singleton l f ih =>
    rw [List.foldl_append, List.foldl_cons, List.foldl_nil, ih]
    cases hf : convertField f with
    | none =>
      have hnames : specNames (l ++ [f]) = specNames l := by
        unfold specNames rawNames
        rw [List.filterMap_append]
        simp [hf]
      have hlast : ∀ n, specLastVal (l ++ [f]) n = specLastVal l n := by
        intro n
        unfold specLastVal
        rw [List.foldl_append, List.foldl_cons, List.foldl_nil, hf]
      unfold specProperties
      rw [hnames]
      apply List.map_congr_left
      intro n _
      rw [hlast n]
    | some p =>
      obtain ⟨nm, dsc⟩ := p
      have hraw : rawNames (l ++ [f]) = rawNames l ++ [nm] := by
        unfold rawNames
        rw [List.filterMap_append]
        simp [hf]
      have hnames : specNames (l ++ [f])
          = if nm ∈ rawNames l then specNames l else specNames l ++ [nm] := by
        unfold specNames
        rw [hraw]
        exact dedupFirst_append nm (rawNames l).length (rawNames l) (Nat.le_refl _)
      have hmemiff : nm ∈ specNames l ↔ nm ∈ rawNames l :=
        mem_dedupFirst nm (rawNames l).length (rawNames l) (Nat.le_refl _)
      have hlast : ∀ n, specLastVal (l ++ [f]) n
          = if nm = n then some dsc else specLastVal l n := by
        intro n
        unfold specLastVal
        rw [List.foldl_append, List.foldl_cons, List.foldl_nil, hf]
      have hnd : (specNames l).Nodup :=
        dedupFirst_nodup (rawNames l).length (rawNames l) (Nat.le_refl _)
      change dictSet ((specNames l).map (fun n => (n, (specLastVal l n).getD PyVal.none)))
          nm dsc = specProperties (l ++ [f])
      rw [dictSet_map nm dsc (specNames l) (fun n => (specLastVal l n).getD PyVal.none) hnd]
      by_cases hmem : nm ∈ specNames l
      · rw [if_pos hmem]
        unfold specProperties
        rw [hnames, if_pos (hmemiff.mp hmem)]
        apply List.map_congr_left
        intro n _
        rw [hlast n]
        by_cases hnm : n = nm
        · subst hnm
          simp
        · rw [if_neg hnm, if_neg (fun hc => hnm hc.symm)]
      · rw [if_neg hmem]
        unfold specProperties
        rw [hnames, if_neg (fun hc => hmem (hmemiff.mpr hc)), List.map_append]
        congr 1
        · apply List.map_congr_left
          intro n hn
          rw [hlast n]
          have : nm ≠ n := fun hc => hmem (hc ▸ hn)
          rw [if_neg this]
        · rw [List.map_cons, List.map_nil, hlast nm, if_pos rfl]
          rfl

/-- C5: converting a list-shaped contract is a pure function of the input
list, yielding `{"type": "object", "properties": P}` where `P` has one
key per distinct record name in first-occurrence input order, each
carrying `{type: given type or "string", description: given description
or "Extract the {name}"}` from the last record with that name; records
that are not mappings with a `'name'` key are skipped without error. -/
theorem convert_contract_list_spec (contract_list : List PyVal) :
    convert_contract_list_to_dict contract_list =
      .dict [("type", .str "object"),
             ("properties", .dict (specProperties contract_list))] := by
  unfold convert_contract_list_to_dict
  rw [convertProps_eq_spec contract_list]
